import Mathlib

/-!  Verification development for the tar splitting tool.

A shallow embedding of src/cmd/root.go (package cmd) and src/main.go
(package main): the bin packing planner buildTarPlan with its inner
backfill loop, the stream selection logic of generateSlice and
createNewTars, the target size plumbing of split, and the routing table
plus rewrite loop of createNewTars.  Sizes are Go int64 values, modelled
as Int; slice indices are modelled as Int with a bounds checked access
that returns none where Go would panic.  -/

namespace TarSplit

/-- Entry record of the planner (root.go, type NameAndSize): archive entry
name and its byte size. -/
structure NameAndSize where
  Name : String
  Size : Int
deriving DecidableEq

/-- A plan (root.go, type Plan): the ordered pool of entries routed to one
output archive.  The tar.Writer handle of the Go struct carries no planning
state; a plan's writer is identified with the plan's position in the plan
list (see filenamePtrMap below). -/
structure Plan where
  Pool : List NameAndSize
deriving DecidableEq

/-- Bounds checked access data[k] to a Go slice: some value when
0 <= k < len(data), none where Go would panic on an out of bounds index. -/
def index? (data : List NameAndSize) (k : Int) : Option NameAndSize :=
  if 0 ≤ k then data[k.toNat]? else none

/-- The inner backfill loop of buildTarPlan (root.go lines 136 to 145):
while endIndex >= i, an entry is taken from the high pointer exactly when
currentPlanTotalSize + data[endIndex].Size < targetSize (strict), and
endIndex retreats; otherwise the loop breaks with canAddSmall = false.
The result is (endIndex, pool, currentPlanTotalSize, canAddSmall) after
the loop; none models an out of bounds slice access. -/
def backfill (data : List NameAndSize) (targetSize i endIndex : Int)
    (pool : List NameAndSize) (total : Int) :
    Option (Int × List NameAndSize × Int × Bool) :=
  if h : endIndex ≥ i then
    match index? data endIndex with
    | none => none
    | some e =>
      if total + e.Size < targetSize then
        backfill data targetSize i (endIndex - 1) (pool ++ [e]) (total + e.Size)
      else
        some (endIndex, pool, total, false)
  else
    some (endIndex, pool, total, true)
termination_by (endIndex + 1 - i).toNat
decreasing_by omega

theorem backfill_exit (data : List NameAndSize) (targetSize i endIndex : Int)
    (pool : List NameAndSize) (total : Int) (h : ¬ endIndex ≥ i) :
    backfill data targetSize i endIndex pool total = some (endIndex, pool, total, true) := by
  rw [backfill.eq_def, dif_neg h]

theorem backfill_oob (data : List NameAndSize) (targetSize i endIndex : Int)
    (pool : List NameAndSize) (total : Int) (h : endIndex ≥ i)
    (hid : index? data endIndex = none) :
    backfill data targetSize i endIndex pool total = none := by
  rw [backfill.eq_def, dif_pos h]
  simp only [hid]

theorem backfill_add (data : List NameAndSize) (targetSize i endIndex : Int)
    (pool : List NameAndSize) (total : Int) (e : NameAndSize) (h : endIndex ≥ i)
    (hid : index? data endIndex = some e) (hlt : total + e.Size < targetSize) :
    backfill data targetSize i endIndex pool total =
      backfill data targetSize i (endIndex - 1) (pool ++ [e]) (total + e.Size) := by
  conv_lhs => rw [backfill.eq_def]
  rw [dif_pos h]
  simp only [hid, if_pos hlt]

theorem backfill_stop (data : List NameAndSize) (targetSize i endIndex : Int)
    (pool : List NameAndSize) (total : Int) (e : NameAndSize) (h : endIndex ≥ i)
    (hid : index? data endIndex = some e) (hnlt : ¬ total + e.Size < targetSize) :
    backfill data targetSize i endIndex pool total = some (endIndex, pool, total, false) := by
  rw [backfill.eq_def, dif_pos h]
  simp only [hid, if_neg hnlt]

/-- The high pointer never advances: the endIndex returned by the backfill
loop is at most the endIndex it started from. -/
theorem backfill_le_aux (data : List NameAndSize) (targetSize i : Int) :
    ∀ (n : Nat) (endIndex : Int) (pool : List NameAndSize) (total e1 : Int)
      (p1 : List NameAndSize) (t1 : Int) (c1 : Bool),
      (endIndex + 1 - i).toNat = n →
      backfill data targetSize i endIndex pool total = some (e1, p1, t1, c1) →
      e1 ≤ endIndex := by
  intro n
  induction n using Nat.strong_induction_on with
  | _ n ih =>
    intro endIndex pool total e1 p1 t1 c1 hn hbf
    by_cases hge : endIndex ≥ i
    · cases hid : index? data endIndex with
      | none =>
        rw [backfill_oob data targetSize i endIndex pool total hge hid] at hbf
        exact Option.noConfusion hbf
      | some e =>
        by_cases hlt : total + e.Size < targetSize
        · rw [backfill_add data targetSize i endIndex pool total e hge hid hlt] at hbf
          have h2 := ih ((endIndex - 1) + 1 - i).toNat (by omega) (endIndex - 1) _ _ _ _ _ _
            rfl hbf
          omega
        · rw [backfill_stop data targetSize i endIndex pool total e hge hid hlt] at hbf
          simp only [Option.some.injEq, Prod.mk.injEq] at hbf
          obtain ⟨h1, -⟩ := hbf
          omega
    · rw [backfill_exit data targetSize i endIndex pool total hge] at hbf
      simp only [Option.some.injEq, Prod.mk.injEq] at hbf
      obtain ⟨h1, -⟩ := hbf
      omega

theorem backfill_le {data : List NameAndSize} {targetSize i endIndex : Int}
    {pool : List NameAndSize} {total : Int} {e1 : Int} {p1 : List NameAndSize}
    {t1 : Int} {c1 : Bool}
    (h : backfill data targetSize i endIndex pool total = some (e1, p1, t1, c1)) :
    e1 ≤ endIndex :=
  backfill_le_aux data targetSize i _ endIndex pool total e1 p1 t1 c1 rfl h

/-- The outer loop of buildTarPlan (root.go lines 130 to 170), one recursive
call per iteration of the for loop over the low pointer i.  State: the closed
plans, the current plan's pool and running total, the high pointer endIndex,
and addToNext.  In the Go code canAddSmall is reset to true in the same
iteration that sets it false (the close block always runs then), so every
iteration starts with canAddSmall = true; within one iteration its value is
true after the forward branch and the Bool returned by backfill after the
else branch.  In the else branch addToNext is set to true before the close
check.  finished is i == endIndex evaluated after the branch, with the
updated endIndex.  The close block appends the current plan and, when
addToNext holds, seeds the next plan with data[i] (appending it at once when
finished); leaving the loop without the break returns the closed plans,
discarding the open pool exactly as the Go code does. -/
def planLoop (data : List NameAndSize) (targetSize i endIndex : Int)
    (plans : List Plan) (pool : List NameAndSize) (total : Int)
    (addToNext : Bool) : Option (List Plan) :=
  if h0 : i ≤ endIndex then
    match index? data i with
    | none => none
    | some di =>
      if total + di.Size ≤ targetSize then
        if i = endIndex then
          if addToNext then some (plans ++ [⟨pool ++ [di]⟩, ⟨[di]⟩])
          else some (plans ++ [⟨pool ++ [di]⟩])
        else
          planLoop data targetSize (i + 1) endIndex plans (pool ++ [di])
            (total + di.Size) addToNext
      else
        match hbf : backfill data targetSize i endIndex pool total with
        | none => none
        | some (endIndex1, pool1, total1, canAddSmall1) =>
          if i = endIndex1 then
            some (plans ++ [⟨pool1⟩, ⟨[di]⟩])
          else if canAddSmall1 = false then
            planLoop data targetSize (i + 1) endIndex1 (plans ++ [⟨pool1⟩])
              [di] di.Size false
          else
            planLoop data targetSize (i + 1) endIndex1 plans pool1 total1 true
  else
    some plans
termination_by (endIndex + 1 - i).toNat
decreasing_by
  · omega
  · have := backfill_le hbf
    omega
  · have := backfill_le hbf
    omega

/-- buildTarPlan (root.go lines 118 to 172): plans start empty, the current
plan is empty with total 0, i starts at 0 and endIndex at len(data) - 1,
addToNext starts false. -/
def buildTarPlan (data : List NameAndSize) (targetSize : Int) : Option (List Plan) :=
  planLoop data targetSize 0 ((data.length : Int) - 1) [] [] 0 false

theorem planLoop_exit (data : List NameAndSize) (targetSize i endIndex : Int)
    (plans : List Plan) (pool : List NameAndSize) (total : Int) (a : Bool)
    (h0 : ¬ i ≤ endIndex) :
    planLoop data targetSize i endIndex plans pool total a = some plans := by
  rw [planLoop.eq_def, dif_neg h0]

theorem planLoop_oob (data : List NameAndSize) (targetSize i endIndex : Int)
    (plans : List Plan) (pool : List NameAndSize) (total : Int) (a : Bool)
    (h0 : i ≤ endIndex) (hdi : index? data i = none) :
    planLoop data targetSize i endIndex plans pool total a = none := by
  rw [planLoop.eq_def, dif_pos h0]
  simp only [hdi]

theorem planLoop_forward (data : List NameAndSize) (targetSize i endIndex : Int)
    (plans : List Plan) (pool : List NameAndSize) (total : Int) (a : Bool)
    (di : NameAndSize) (h0 : i ≤ endIndex) (hdi : index? data i = some di)
    (hfit : total + di.Size ≤ targetSize) :
    planLoop data targetSize i endIndex plans pool total a =
      if i = endIndex then
        (if a then some (plans ++ [⟨pool ++ [di]⟩, ⟨[di]⟩])
         else some (plans ++ [⟨pool ++ [di]⟩]))
      else
        planLoop data targetSize (i + 1) endIndex plans (pool ++ [di])
          (total + di.Size) a := by
  conv_lhs => rw [planLoop.eq_def]
  rw [dif_pos h0]
  simp only [hdi, if_pos hfit]

theorem planLoop_else (data : List NameAndSize) (targetSize i endIndex : Int)
    (plans : List Plan) (pool : List NameAndSize) (total : Int) (a : Bool)
    (di : NameAndSize) (endIndex1 : Int) (pool1 : List NameAndSize)
    (total1 : Int) (c1 : Bool) (h0 : i ≤ endIndex) (hdi : index? data i = some di)
    (hnfit : ¬ total + di.Size ≤ targetSize)
    (hbf : backfill data targetSize i endIndex pool total =
      some (endIndex1, pool1, total1, c1)) :
    planLoop data targetSize i endIndex plans pool total a =
      if i = endIndex1 then
        some (plans ++ [⟨pool1⟩, ⟨[di]⟩])
      else if c1 = false then
        planLoop data targetSize (i + 1) endIndex1 (plans ++ [⟨pool1⟩])
          [di] di.Size false
      else
        planLoop data targetSize (i + 1) endIndex1 plans pool1 total1 true := by
  conv_lhs => rw [planLoop.eq_def]
  rw [dif_pos h0]
  simp only [hdi, if_neg hnfit]
  split
  · rename_i heq
    rw [hbf] at heq
    exact Option.noConfusion heq
  · rename_i e1 p1 t1 cc1 heq
    rw [hbf] at heq
    simp only [Option.some.injEq, Prod.mk.injEq] at heq
    obtain ⟨h1, h2, h3, h4⟩ := heq
    subst h1 h2 h3 h4
    rfl

/-- Sum of the sizes of a pool, the value the running variable
currentPlanTotalSize tracks. -/
def poolSum (pool : List NameAndSize) : Int :=
  (pool.map NameAndSize.Size).sum

theorem poolSum_append_single (pool : List NameAndSize) (e : NameAndSize) :
    poolSum (pool ++ [e]) = poolSum pool + e.Size := by
  simp [poolSum]

/-- Concatenation of the pools of a plan list. -/
def plansJoin (plans : List Plan) : List NameAndSize :=
  (plans.map Plan.Pool).flatten

theorem plansJoin_append_single (plans : List Plan) (pool : List NameAndSize) :
    plansJoin (plans ++ [⟨pool⟩]) = plansJoin plans ++ pool := by
  simp [plansJoin]

theorem plansJoin_append_two (plans : List Plan) (p1 p2 : List NameAndSize) :
    plansJoin (plans ++ [⟨p1⟩, ⟨p2⟩]) = plansJoin plans ++ p1 ++ p2 := by
  simp [plansJoin]

/-- The still unassigned slice region data[i .. endIndex], both ends
inclusive. -/
def region (data : List NameAndSize) (i endIndex : Int) : List NameAndSize :=
  (data.take (endIndex + 1).toNat).drop i.toNat

theorem index?_mem {data : List NameAndSize} {k : Int} {e : NameAndSize}
    (h : index? data k = some e) : e ∈ data := by
  unfold index? at h
  split at h
  · exact List.getElem?_mem h
  · exact Option.noConfusion h

theorem region_empty (data : List NameAndSize) {i endIndex : Int}
    (h : endIndex < i) : region data i endIndex = [] := by
  unfold region
  apply List.drop_eq_nil_of_le
  simp only [List.length_take]
  omega

theorem region_cons (data : List NameAndSize) {i endIndex : Int} {di : NameAndSize}
    (h0 : 0 ≤ i) (hie : i ≤ endIndex) (hdi : index? data i = some di) :
    region data i endIndex = di :: region data (i + 1) endIndex := by
  unfold index? at hdi
  rw [if_pos h0] at hdi
  obtain ⟨hlt, hval⟩ := List.getElem?_eq_some_iff.mp hdi
  unfold region
  have hlen : i.toNat < (data.take (endIndex + 1).toNat).length := by
    simp only [List.length_take]
    omega
  rw [List.drop_eq_getElem_cons hlen]
  have h1 : (i + 1).toNat = i.toNat + 1 := by omega
  rw [h1]
  congr 1
  rw [List.getElem_take]
  exact hval

theorem region_snoc (data : List NameAndSize) {i endIndex : Int} {be : NameAndSize}
    (h0 : 0 ≤ i) (hie : i ≤ endIndex) (hbe : index? data endIndex = some be) :
    region data i endIndex = region data i (endIndex - 1) ++ [be] := by
  have h0e : 0 ≤ endIndex := le_trans h0 hie
  unfold index? at hbe
  rw [if_pos h0e] at hbe
  have hlt : endIndex.toNat < data.length := (List.getElem?_eq_some_iff.mp hbe).1
  unfold region
  have h1 : (endIndex + 1).toNat = endIndex.toNat + 1 := by omega
  have h2 : (endIndex - 1 + 1).toNat = endIndex.toNat := by omega
  rw [h1, h2, List.take_succ, hbe]
  have hlen : i.toNat ≤ (data.take endIndex.toNat).length := by
    simp only [List.length_take]
    omega
  rw [List.drop_append_of_le_length hlen]
  rfl

theorem region_all (data : List NameAndSize) :
    region data 0 ((data.length : Int) - 1) = data := by
  unfold region
  have h1 : ((data.length : Int) - 1 + 1).toNat = data.length := by omega
  have h2 : (0 : Int).toNat = 0 := rfl
  rw [h1, h2, List.take_length, List.drop_zero]

/-- Combined functional specification of the backfill loop: it tracks the
pool sum correctly, it either ends strictly under the budget or leaves the
pool untouched, and the entries it moves into the pool are exactly the ones
it removes from the high end of the region. -/
theorem backfill_spec_aux (data : List NameAndSize) (targetSize i : Int) :
    ∀ (n : Nat) (endIndex : Int) (pool : List NameAndSize) (total e1 : Int)
      (p1 : List NameAndSize) (t1 : Int) (c1 : Bool),
      (endIndex + 1 - i).toNat = n →
      backfill data targetSize i endIndex pool total = some (e1, p1, t1, c1) →
      (total = poolSum pool → t1 = poolSum p1) ∧
      (t1 < targetSize ∨ (p1 = pool ∧ t1 = total)) ∧
      (0 ≤ i → (p1 ++ region data i e1).Perm (pool ++ region data i endIndex)) := by
  intro n
  induction n using Nat.strong_induction_on with
  | _ n ih =>
    intro endIndex pool total e1 p1 t1 c1 hn hbf
    by_cases hge : endIndex ≥ i
    · cases hid : index? data endIndex with
      | none =>
        rw [backfill_oob data targetSize i endIndex pool total hge hid] at hbf
        exact Option.noConfusion hbf
      | some e =>
        by_cases hlt : total + e.Size < targetSize
        · rw [backfill_add data targetSize i endIndex pool total e hge hid hlt] at hbf
          have IH := ih ((endIndex - 1) + 1 - i).toNat (by omega) (endIndex - 1) _ _ _ _ _ _
            rfl hbf
          refine ⟨?_, ?_, ?_⟩
          · intro htot
            exact IH.1 (by rw [poolSum_append_single, ← htot])
          · rcases IH.2.1 with h | ⟨hp, ht⟩
            · exact Or.inl h
            · exact Or.inl (by rw [ht]; exact hlt)
          · intro h0i
            refine (IH.2.2 h0i).trans ?_
            rw [region_snoc data h0i hge hid, List.append_assoc]
            exact List.Perm.append_left pool List.perm_append_comm
        · rw [backfill_stop data targetSize i endIndex pool total e hge hid hlt] at hbf
          simp only [Option.some.injEq, Prod.mk.injEq] at hbf
          obtain ⟨h1, h2, h3, h4⟩ := hbf
          subst h1 h2 h3
          exact ⟨fun h => h, Or.inr ⟨rfl, rfl⟩, fun _ => List.Perm.refl _⟩
    · rw [backfill_exit data targetSize i endIndex pool total hge] at hbf
      simp only [Option.some.injEq, Prod.mk.injEq] at hbf
      obtain ⟨h1, h2, h3, h4⟩ := hbf
      subst h1 h2 h3
      exact ⟨fun h => h, Or.inr ⟨rfl, rfl⟩, fun _ => List.Perm.refl _⟩

theorem backfill_spec {data : List NameAndSize} {targetSize i endIndex : Int}
    {pool : List NameAndSize} {total e1 : Int} {p1 : List NameAndSize}
    {t1 : Int} {c1 : Bool}
    (hbf : backfill data targetSize i endIndex pool total = some (e1, p1, t1, c1)) :
    (total = poolSum pool → t1 = poolSum p1) ∧
    (t1 < targetSize ∨ (p1 = pool ∧ t1 = total)) ∧
    (0 ≤ i → (p1 ++ region data i e1).Perm (pool ++ region data i endIndex)) :=
  backfill_spec_aux data targetSize i _ endIndex pool total e1 p1 t1 c1 rfl hbf

/-- With the low pointer entry too large for the current plan (the situation
in which the Go code enters the backfill loop) and all sizes non negative,
the backfill loop can never cross the low pointer: it stops at some
endIndex >= i with canAddSmall = false. -/
theorem backfill_no_cross_aux (data : List NameAndSize) (targetSize i : Int)
    (di : NameAndSize) (hdi : index? data i = some di)
    (hsz : ∀ x ∈ data, 0 ≤ x.Size) :
    ∀ (n : Nat) (endIndex : Int) (pool : List NameAndSize) (total e1 : Int)
      (p1 : List NameAndSize) (t1 : Int) (c1 : Bool),
      (endIndex + 1 - i).toNat = n →
      i ≤ endIndex → targetSize < total + di.Size →
      backfill data targetSize i endIndex pool total = some (e1, p1, t1, c1) →
      i ≤ e1 ∧ c1 = false := by
  intro n
  induction n using Nat.strong_induction_on with
  | _ n ih =>
    intro endIndex pool total e1 p1 t1 c1 hn hie hbig hbf
    have hge : endIndex ≥ i := hie
    cases hid : index? data endIndex with
    | none =>
      rw [backfill_oob data targetSize i endIndex pool total hge hid] at hbf
      exact Option.noConfusion hbf
    | some e =>
      by_cases hlt : total + e.Size < targetSize
      · by_cases heq : endIndex = i
        · subst heq
          rw [hdi] at hid
          obtain rfl : e = di := by
            simpa using hid.symm
          omega
        · rw [backfill_add data targetSize i endIndex pool total e hge hid hlt] at hbf
          have hemem := index?_mem hid
          have hepos := hsz e hemem
          exact ih ((endIndex - 1) + 1 - i).toNat (by omega) (endIndex - 1) _ _ _ _ _ _
            rfl (by omega) (by omega) hbf
      · rw [backfill_stop data targetSize i endIndex pool total e hge hid hlt] at hbf
        simp only [Option.some.injEq, Prod.mk.injEq] at hbf
        obtain ⟨h1, -, -, h4⟩ := hbf
        exact ⟨by omega, h4.symm⟩

theorem backfill_no_cross {data : List NameAndSize} {targetSize i endIndex : Int}
    {di : NameAndSize} {pool : List NameAndSize} {total e1 : Int}
    {p1 : List NameAndSize} {t1 : Int} {c1 : Bool}
    (hdi : index? data i = some di) (hsz : ∀ x ∈ data, 0 ≤ x.Size)
    (hie : i ≤ endIndex) (hbig : targetSize < total + di.Size)
    (hbf : backfill data targetSize i endIndex pool total = some (e1, p1, t1, c1)) :
    i ≤ e1 ∧ c1 = false :=
  backfill_no_cross_aux data targetSize i di hdi hsz _ endIndex pool total e1 p1 t1 c1
    rfl hie hbig hbf

/-- Every slice access performed by the backfill loop is in bounds when the
loop is entered from a state with 0 <= i and endIndex < len(data). -/
theorem backfill_isSome_aux (data : List NameAndSize) (targetSize i : Int) :
    ∀ (n : Nat) (endIndex : Int) (pool : List NameAndSize) (total : Int),
      (endIndex + 1 - i).toNat = n →
      0 ≤ i → endIndex < (data.length : Int) →
      (backfill data targetSize i endIndex pool total).isSome = true := by
  intro n
  induction n using Nat.strong_induction_on with
  | _ n ih =>
    intro endIndex pool total hn h0i hlen
    by_cases hge : endIndex ≥ i
    · have hltn : endIndex.toNat < data.length := by omega
      have hid : index? data endIndex = some data[endIndex.toNat] := by
        unfold index?
        rw [if_pos (by omega : (0:Int) ≤ endIndex)]
        exact List.getElem?_eq_getElem hltn
      by_cases hlt : total + (data[endIndex.toNat]).Size < targetSize
      · rw [backfill_add data targetSize i endIndex pool total _ hge hid hlt]
        exact ih ((endIndex - 1) + 1 - i).toNat (by omega) (endIndex - 1) _ _
          rfl h0i (by omega)
      · rw [backfill_stop data targetSize i endIndex pool total _ hge hid hlt]
        rfl
    · rw [backfill_exit data targetSize i endIndex pool total hge]
      rfl

theorem planLoop_else_oob (data : List NameAndSize) (targetSize i endIndex : Int)
    (plans : List Plan) (pool : List NameAndSize) (total : Int) (a : Bool)
    (di : NameAndSize) (h0 : i ≤ endIndex) (hdi : index? data i = some di)
    (hnfit : ¬ total + di.Size ≤ targetSize)
    (hbf : backfill data targetSize i endIndex pool total = none) :
    planLoop data targetSize i endIndex plans pool total a = none := by
  conv_lhs => rw [planLoop.eq_def]
  rw [dif_pos h0]
  simp only [hdi, if_neg hnfit]
  split
  · rfl
  · rename_i e1 p1 t1 cc1 heq
    rw [hbf] at heq
    exact Option.noConfusion heq

/-- A plan respects the budget or is a single oversized seeded entry. -/
def okPlan (targetSize : Int) (p : Plan) : Prop :=
  poolSum p.Pool ≤ targetSize ∨ ∃ e, p.Pool = [e] ∧ targetSize < e.Size

/-- Every slice access of the outer loop (and of the backfill loops it
enters) is within bounds when started from 0 <= i and
endIndex < len(data): the loop always returns a result. -/
theorem planLoop_isSome_aux (data : List NameAndSize) (targetSize : Int) :
    ∀ (n : Nat) (i endIndex : Int) (plans : List Plan) (pool : List NameAndSize)
      (total : Int) (a : Bool),
      (endIndex + 1 - i).toNat = n →
      0 ≤ i → endIndex < (data.length : Int) →
      (planLoop data targetSize i endIndex plans pool total a).isSome = true := by
  intro n
  induction n using Nat.strong_induction_on with
  | _ n ih =>
    intro i endIndex plans pool total a hn h0i hlen
    by_cases h0 : i ≤ endIndex
    · have hltn : i.toNat < data.length := by omega
      have hdi : index? data i = some data[i.toNat] := by
        unfold index?
        rw [if_pos h0i]
        exact List.getElem?_eq_getElem hltn
      by_cases hfit : total + (data[i.toNat]).Size ≤ targetSize
      · rw [planLoop_forward data targetSize i endIndex plans pool total a _ h0 hdi hfit]
        by_cases hend : i = endIndex
        · rw [if_pos hend]
          cases a <;> rfl
        · rw [if_neg hend]
          exact ih (endIndex + 1 - (i + 1)).toNat (by omega) (i + 1) endIndex plans _ _ a
            rfl (by omega) hlen
      · have hbfs := backfill_isSome_aux data targetSize i (endIndex + 1 - i).toNat
          endIndex pool total rfl h0i hlen
        obtain ⟨r, hbf⟩ := Option.isSome_iff_exists.mp hbfs
        obtain ⟨e1, p1, t1, c1⟩ := r
        rw [planLoop_else data targetSize i endIndex plans pool total a _ e1 p1 t1 c1
          h0 hdi hfit hbf]
        have hle := backfill_le hbf
        by_cases hieq : i = e1
        · rw [if_pos hieq]
          rfl
        · rw [if_neg hieq]
          by_cases hc : c1 = false
          · rw [if_pos hc]
            exact ih (e1 + 1 - (i + 1)).toNat (by omega) (i + 1) e1 _ _ _ _
              rfl (by omega) (by omega)
          · rw [if_neg hc]
            exact ih (e1 + 1 - (i + 1)).toNat (by omega) (i + 1) e1 _ _ _ _
              rfl (by omega) (by omega)
    · rw [planLoop_exit data targetSize i endIndex plans pool total a h0]
      rfl

/-- Budget invariant of the outer loop: with non negative sizes and a non
negative budget, every closed plan either totals at most the budget or is a
single seeded entry whose own size exceeds it. -/
theorem planLoop_budget_aux (data : List NameAndSize) (targetSize : Int)
    (hsz : ∀ x ∈ data, 0 ≤ x.Size) (hT : 0 ≤ targetSize) :
    ∀ (n : Nat) (i endIndex : Int) (plans : List Plan) (pool : List NameAndSize)
      (total : Int) (a : Bool) (res : List Plan),
      (endIndex + 1 - i).toNat = n →
      total = poolSum pool →
      (total ≤ targetSize ∨ ∃ e, pool = [e] ∧ targetSize < e.Size) →
      (∀ p ∈ plans, okPlan targetSize p) →
      planLoop data targetSize i endIndex plans pool total a = some res →
      ∀ p ∈ res, okPlan targetSize p := by
  intro n
  induction n using Nat.strong_induction_on with
  | _ n ih =>
    intro i endIndex plans pool total a res hn htot hcur hplans hres
    by_cases h0 : i ≤ endIndex
    · cases hdi : index? data i with
      | none =>
        rw [planLoop_oob data targetSize i endIndex plans pool total a h0 hdi] at hres
        exact Option.noConfusion hres
      | some di =>
        have hokdi : okPlan targetSize ⟨[di]⟩ := by
          rcases le_or_lt di.Size targetSize with h | h
          · left
            simp [poolSum, h]
          · right
            exact ⟨di, rfl, h⟩
        by_cases hfit : total + di.Size ≤ targetSize
        · rw [planLoop_forward data targetSize i endIndex plans pool total a di
            h0 hdi hfit] at hres
          have hokfwd : okPlan targetSize ⟨pool ++ [di]⟩ := by
            left
            show poolSum (pool ++ [di]) ≤ targetSize
            rw [poolSum_append_single, ← htot]
            exact hfit
          by_cases hend : i = endIndex
          · rw [if_pos hend] at hres
            have hres2 : res = plans ++ [(⟨pool ++ [di]⟩ : Plan), ⟨[di]⟩] ∨
                res = plans ++ [(⟨pool ++ [di]⟩ : Plan)] := by
              split at hres
              · exact Or.inl (Option.some.inj hres).symm
              · exact Or.inr (Option.some.inj hres).symm
            intro p hp
            have hp2 : p ∈ plans ∨ p = (⟨pool ++ [di]⟩ : Plan) ∨ p = (⟨[di]⟩ : Plan) := by
              rcases hres2 with rfl | rfl
              · simp only [List.mem_append, List.mem_cons, List.not_mem_nil,
                  or_false] at hp
                tauto
              · simp only [List.mem_append, List.mem_cons, List.not_mem_nil,
                  or_false] at hp
                tauto
            rcases hp2 with h | h | h
            · exact hplans p h
            · exact h ▸ hokfwd
            · exact h ▸ hokdi
          · rw [if_neg hend] at hres
            exact ih (endIndex + 1 - (i + 1)).toNat (by omega) (i + 1) endIndex plans
              (pool ++ [di]) (total + di.Size) a res rfl
              (by rw [poolSum_append_single, ← htot]) (Or.inl hfit) hplans hres
        · cases hbf : backfill data targetSize i endIndex pool total with
          | none =>
            rw [planLoop_else_oob data targetSize i endIndex plans pool total a di
              h0 hdi hfit hbf] at hres
            exact Option.noConfusion hres
          | some r =>
            obtain ⟨e1, p1, t1, c1⟩ := r
            rw [planLoop_else data targetSize i endIndex plans pool total a di
              e1 p1 t1 c1 h0 hdi hfit hbf] at hres
            have spec := backfill_spec hbf
            have ht1 : t1 = poolSum p1 := spec.1 htot
            have hok1 : okPlan targetSize ⟨p1⟩ := by
              rcases spec.2.1 with h | ⟨hp, ht⟩
              · left
                show poolSum p1 ≤ targetSize
                omega
              · subst hp
                rcases hcur with hc | ⟨e, he, hbig⟩
                · left
                  show poolSum p1 ≤ targetSize
                  omega
                · right
                  exact ⟨e, he, hbig⟩
            have hle := backfill_le hbf
            by_cases hieq : i = e1
            · rw [if_pos hieq] at hres
              have hres2 := (Option.some.inj hres).symm
              subst hres2
              intro p hp
              simp only [List.mem_append, List.mem_cons, List.not_mem_nil,
                or_false] at hp
              rcases hp with h | h | h
              · exact hplans p h
              · exact h ▸ hok1
              · exact h ▸ hokdi
            · rw [if_neg hieq] at hres
              by_cases hc : c1 = false
              · rw [if_pos hc] at hres
                refine ih (e1 + 1 - (i + 1)).toNat
                  (by clear * - hn h0 hle; omega) (i + 1) e1
                  (plans ++ [⟨p1⟩]) [di] di.Size false res rfl (by simp [poolSum])
                  ?_ ?_ hres
                · rcases le_or_lt di.Size targetSize with hd | hd
                  · left
                    simpa [poolSum] using hd
                  · right
                    exact ⟨di, rfl, hd⟩
                · intro p hp
                  simp only [List.mem_append, List.mem_cons, List.not_mem_nil,
                    or_false] at hp
                  rcases hp with h | h
                  · exact hplans p h
                  · exact h ▸ hok1
              · rw [if_neg hc] at hres
                refine ih (e1 + 1 - (i + 1)).toNat
                  (by clear * - hn h0 hle; omega) (i + 1) e1 plans p1 t1
                  true res rfl ht1 ?_ hplans hres
                rcases hok1 with h | ⟨e, he, hbig⟩
                · exact Or.inl (by rw [ht1]; exact h)
                · exact Or.inr ⟨e, he, hbig⟩
    · rw [planLoop_exit data targetSize i endIndex plans pool total a h0] at hres
      simp only [Option.some.injEq] at hres
      subst hres
      exact hplans

/-- Coverage invariant of the outer loop: with non negative sizes, starting
from addToNext = false, the pools of the returned plans are a permutation of
the already closed pools, the current pool, and the unassigned region. -/
theorem planLoop_perm_aux (data : List NameAndSize) (targetSize : Int)
    (hsz : ∀ x ∈ data, 0 ≤ x.Size) :
    ∀ (n : Nat) (i endIndex : Int) (plans : List Plan) (pool : List NameAndSize)
      (total : Int) (res : List Plan),
      (endIndex + 1 - i).toNat = n →
      0 ≤ i →
      (endIndex < i → pool = []) →
      planLoop data targetSize i endIndex plans pool total false = some res →
      (plansJoin res).Perm (plansJoin plans ++ (pool ++ region data i endIndex)) := by
  intro n
  induction n using Nat.strong_induction_on with
  | _ n ih =>
    intro i endIndex plans pool total res hn h0i hpool hres
    by_cases h0 : i ≤ endIndex
    · cases hdi : index? data i with
      | none =>
        rw [planLoop_oob data targetSize i endIndex plans pool total false h0 hdi] at hres
        exact Option.noConfusion hres
      | some di =>
        by_cases hfit : total + di.Size ≤ targetSize
        · rw [planLoop_forward data targetSize i endIndex plans pool total false di
            h0 hdi hfit] at hres
          by_cases hend : i = endIndex
          · rw [if_pos hend, if_neg Bool.false_ne_true] at hres
            simp only [Option.some.injEq] at hres
            subst hres
            have hreg : region data i endIndex = [di] := by
              rw [region_cons data h0i h0 hdi, region_empty data (by omega)]
            rw [plansJoin_append_single, hreg]
          · rw [if_neg hend] at hres
            have IH := ih (endIndex + 1 - (i + 1)).toNat
              (by clear * - hn h0; omega) (i + 1) endIndex
              plans (pool ++ [di]) (total + di.Size) res rfl
              (by clear * - h0i; omega)
              (by intro hcon; exact absurd hcon (by clear * - h0 hend; omega)) hres
            rw [region_cons data h0i h0 hdi]
            simpa [List.append_assoc] using IH
        · have hbig : targetSize < total + di.Size := by omega
          cases hbf : backfill data targetSize i endIndex pool total with
          | none =>
            rw [planLoop_else_oob data targetSize i endIndex plans pool total false di
              h0 hdi hfit hbf] at hres
            exact Option.noConfusion hres
          | some r =>
            obtain ⟨e1, p1, t1, c1⟩ := r
            obtain ⟨hie1, hc1⟩ := backfill_no_cross hdi hsz h0 hbig hbf
            have hperm := (backfill_spec hbf).2.2 h0i
            have hle := backfill_le hbf
            rw [planLoop_else data targetSize i endIndex plans pool total false di
              e1 p1 t1 c1 h0 hdi hfit hbf] at hres
            by_cases hieq : i = e1
            · rw [if_pos hieq] at hres
              simp only [Option.some.injEq] at hres
              subst hres
              have hreg : region data i e1 = [di] := by
                rw [← hieq, region_cons data h0i le_rfl hdi, region_empty data (by omega)]
              rw [hreg] at hperm
              rw [plansJoin_append_two, List.append_assoc]
              exact List.Perm.append_left _ hperm
            · rw [if_neg hieq, if_pos hc1] at hres
              have IH := ih (e1 + 1 - (i + 1)).toNat (by omega) (i + 1) e1
                (plans ++ [⟨p1⟩]) [di] di.Size res rfl (by omega)
                (by intro h; exact absurd h (by omega)) hres
              rw [plansJoin_append_single] at IH
              have hreg : region data i e1 = di :: region data (i + 1) e1 :=
                region_cons data h0i hie1 hdi
              refine IH.trans ?_
              have hstep : (p1 ++ ([di] ++ region data (i + 1) e1)).Perm
                  (pool ++ region data i endIndex) := by
                rw [List.singleton_append, ← hreg]
                exact hperm
              rw [List.append_assoc]
              exact List.Perm.append_left _ hstep
    · rw [planLoop_exit data targetSize i endIndex plans pool total false h0] at hres
      simp only [Option.some.injEq] at hres
      subst hres
      rw [hpool (by omega), region_empty data (by omega)]
      simp

namespace MainGo

/-!  The planner of src/main.go (package main), lines 80 to 134.  The Go
source of main.go's buildTarPlan is textually identical to the one in
src/cmd/root.go; the NameAndSize and Plan struct declarations are likewise
identical in the two files and are shared here.  The two functions are
embedded independently below and proved extensionally equal. -/

/-- Inner backfill loop of main.go's buildTarPlan (main.go lines 98 to 107). -/
def backfill (data : List NameAndSize) (targetSize i endIndex : Int)
    (pool : List NameAndSize) (total : Int) :
    Option (Int × List NameAndSize × Int × Bool) :=
  if h : endIndex ≥ i then
    match index? data endIndex with
    | none => none
    | some e =>
      if total + e.Size < targetSize then
        backfill data targetSize i (endIndex - 1) (pool ++ [e]) (total + e.Size)
      else
        some (endIndex, pool, total, false)
  else
    some (endIndex, pool, total, true)
termination_by (endIndex + 1 - i).toNat
decreasing_by omega

theorem mainBackfill_exit (data : List NameAndSize) (targetSize i endIndex : Int)
    (pool : List NameAndSize) (total : Int) (h : ¬ endIndex ≥ i) :
    backfill data targetSize i endIndex pool total = some (endIndex, pool, total, true) := by
  rw [backfill.eq_def, dif_neg h]

theorem mainBackfill_oob (data : List NameAndSize) (targetSize i endIndex : Int)
    (pool : List NameAndSize) (total : Int) (h : endIndex ≥ i)
    (hid : index? data endIndex = none) :
    backfill data targetSize i endIndex pool total = none := by
  rw [backfill.eq_def, dif_pos h]
  simp only [hid]

theorem mainBackfill_add (data : List NameAndSize) (targetSize i endIndex : Int)
    (pool : List NameAndSize) (total : Int) (e : NameAndSize) (h : endIndex ≥ i)
    (hid : index? data endIndex = some e) (hlt : total + e.Size < targetSize) :
    backfill data targetSize i endIndex pool total =
      backfill data targetSize i (endIndex - 1) (pool ++ [e]) (total + e.Size) := by
  conv_lhs => rw [backfill.eq_def]
  rw [dif_pos h]
  simp only [hid, if_pos hlt]

theorem mainBackfill_stop (data : List NameAndSize) (targetSize i endIndex : Int)
    (pool : List NameAndSize) (total : Int) (e : NameAndSize) (h : endIndex ≥ i)
    (hid : index? data endIndex = some e) (hnlt : ¬ total + e.Size < targetSize) :
    backfill data targetSize i endIndex pool total = some (endIndex, pool, total, false) := by
  rw [backfill.eq_def, dif_pos h]
  simp only [hid, if_neg hnlt]

theorem mainBackfill_eq_aux (data : List NameAndSize) (targetSize i : Int) :
    ∀ (n : Nat) (endIndex : Int) (pool : List NameAndSize) (total : Int),
      (endIndex + 1 - i).toNat = n →
      backfill data targetSize i endIndex pool total =
        TarSplit.backfill data targetSize i endIndex pool total := by
  intro n
  induction n using Nat.strong_induction_on with
  | _ n ih =>
    intro endIndex pool total hn
    by_cases hge : endIndex ≥ i
    · cases hid : index? data endIndex with
      | none =>
        rw [mainBackfill_oob _ _ _ _ _ _ hge hid,
          TarSplit.backfill_oob _ _ _ _ _ _ hge hid]
      | some e =>
        by_cases hlt : total + e.Size < targetSize
        · rw [mainBackfill_add _ _ _ _ _ _ e hge hid hlt,
            TarSplit.backfill_add _ _ _ _ _ _ e hge hid hlt]
          exact ih ((endIndex - 1) + 1 - i).toNat (by omega) _ _ _ rfl
        · rw [mainBackfill_stop _ _ _ _ _ _ e hge hid hlt,
            TarSplit.backfill_stop _ _ _ _ _ _ e hge hid hlt]
    · rw [mainBackfill_exit _ _ _ _ _ _ hge, TarSplit.backfill_exit _ _ _ _ _ _ hge]

theorem mainBackfill_eq (data : List NameAndSize) (targetSize i endIndex : Int)
    (pool : List NameAndSize) (total : Int) :
    backfill data targetSize i endIndex pool total =
      TarSplit.backfill data targetSize i endIndex pool total :=
  mainBackfill_eq_aux data targetSize i _ endIndex pool total rfl

theorem mainBackfill_le {data : List NameAndSize} {targetSize i endIndex : Int}
    {pool : List NameAndSize} {total : Int} {e1 : Int} {p1 : List NameAndSize}
    {t1 : Int} {c1 : Bool}
    (h : backfill data targetSize i endIndex pool total = some (e1, p1, t1, c1)) :
    e1 ≤ endIndex :=
  TarSplit.backfill_le ((mainBackfill_eq data targetSize i endIndex pool total).symm.trans h)

/-- Outer loop of main.go's buildTarPlan (main.go lines 92 to 132), embedded
exactly like the one of root.go. -/
def planLoop (data : List NameAndSize) (targetSize i endIndex : Int)
    (plans : List Plan) (pool : List NameAndSize) (total : Int)
    (addToNext : Bool) : Option (List Plan) :=
  if h0 : i ≤ endIndex then
    match index? data i with
    | none => none
    | some di =>
      if total + di.Size ≤ targetSize then
        if i = endIndex then
          if addToNext then some (plans ++ [⟨pool ++ [di]⟩, ⟨[di]⟩])
          else some (plans ++ [⟨pool ++ [di]⟩])
        else
          planLoop data targetSize (i + 1) endIndex plans (pool ++ [di])
            (total + di.Size) addToNext
      else
        match hbf : backfill data targetSize i endIndex pool total with
        | none => none
        | some (endIndex1, pool1, total1, canAddSmall1) =>
          if i = endIndex1 then
            some (plans ++ [⟨pool1⟩, ⟨[di]⟩])
          else if canAddSmall1 = false then
            planLoop data targetSize (i + 1) endIndex1 (plans ++ [⟨pool1⟩])
              [di] di.Size false
          else
            planLoop data targetSize (i + 1) endIndex1 plans pool1 total1 true
  else
    some plans
termination_by (endIndex + 1 - i).toNat
decreasing_by
  · omega
  · have := mainBackfill_le hbf
    omega
  · have := mainBackfill_le hbf
    omega

/-- buildTarPlan of src/main.go, lines 80 to 134. -/
def buildTarPlan (data : List NameAndSize) (targetSize : Int) : Option (List Plan) :=
  planLoop data targetSize 0 ((data.length : Int) - 1) [] [] 0 false

theorem mainPlanLoop_exit (data : List NameAndSize) (targetSize i endIndex : Int)
    (plans : List Plan) (pool : List NameAndSize) (total : Int) (a : Bool)
    (h0 : ¬ i ≤ endIndex) :
    planLoop data targetSize i endIndex plans pool total a = some plans := by
  rw [planLoop.eq_def, dif_neg h0]

theorem mainPlanLoop_oob (data : List NameAndSize) (targetSize i endIndex : Int)
    (plans : List Plan) (pool : List NameAndSize) (total : Int) (a : Bool)
    (h0 : i ≤ endIndex) (hdi : index? data i = none) :
    planLoop data targetSize i endIndex plans pool total a = none := by
  rw [planLoop.eq_def, dif_pos h0]
  simp only [hdi]

theorem mainPlanLoop_forward (data : List NameAndSize) (targetSize i endIndex : Int)
    (plans : List Plan) (pool : List NameAndSize) (total : Int) (a : Bool)
    (di : NameAndSize) (h0 : i ≤ endIndex) (hdi : index? data i = some di)
    (hfit : total + di.Size ≤ targetSize) :
    planLoop data targetSize i endIndex plans pool total a =
      if i = endIndex then
        (if a then some (plans ++ [⟨pool ++ [di]⟩, ⟨[di]⟩])
         else some (plans ++ [⟨pool ++ [di]⟩]))
      else
        planLoop data targetSize (i + 1) endIndex plans (pool ++ [di])
          (total + di.Size) a := by
  conv_lhs => rw [planLoop.eq_def]
  rw [dif_pos h0]
  simp only [hdi, if_pos hfit]

theorem mainPlanLoop_else (data : List NameAndSize) (targetSize i endIndex : Int)
    (plans : List Plan) (pool : List NameAndSize) (total : Int) (a : Bool)
    (di : NameAndSize) (endIndex1 : Int) (pool1 : List NameAndSize)
    (total1 : Int) (c1 : Bool) (h0 : i ≤ endIndex) (hdi : index? data i = some di)
    (hnfit : ¬ total + di.Size ≤ targetSize)
    (hbf : backfill data targetSize i endIndex pool total =
      some (endIndex1, pool1, total1, c1)) :
    planLoop data targetSize i endIndex plans pool total a =
      if i = endIndex1 then
        some (plans ++ [⟨pool1⟩, ⟨[di]⟩])
      else if c1 = false then
        planLoop data targetSize (i + 1) endIndex1 (plans ++ [⟨pool1⟩])
          [di] di.Size false
      else
        planLoop data targetSize (i + 1) endIndex1 plans pool1 total1 true := by
  conv_lhs => rw [planLoop.eq_def]
  rw [dif_pos h0]
  simp only [hdi, if_neg hnfit]
  split
  · rename_i heq
    rw [hbf] at heq
    exact Option.noConfusion heq
  · rename_i e1 p1 t1 cc1 heq
    rw [hbf] at heq
    simp only [Option.some.injEq, Prod.mk.injEq] at heq
    obtain ⟨h1, h2, h3, h4⟩ := heq
    subst h1 h2 h3 h4
    rfl

theorem mainPlanLoop_else_oob (data : List NameAndSize) (targetSize i endIndex : Int)
    (plans : List Plan) (pool : List NameAndSize) (total : Int) (a : Bool)
    (di : NameAndSize) (h0 : i ≤ endIndex) (hdi : index? data i = some di)
    (hnfit : ¬ total + di.Size ≤ targetSize)
    (hbf : backfill data targetSize i endIndex pool total = none) :
    planLoop data targetSize i endIndex plans pool total a = none := by
  conv_lhs => rw [planLoop.eq_def]
  rw [dif_pos h0]
  simp only [hdi, if_neg hnfit]
  split
  · rfl
  · rename_i e1 p1 t1 cc1 heq
    rw [hbf] at heq
    exact Option.noConfusion heq

theorem mainPlanLoop_eq_aux (data : List NameAndSize) (targetSize : Int) :
    ∀ (n : Nat) (i endIndex : Int) (plans : List Plan) (pool : List NameAndSize)
      (total : Int) (a : Bool),
      (endIndex + 1 - i).toNat = n →
      planLoop data targetSize i endIndex plans pool total a =
        TarSplit.planLoop data targetSize i endIndex plans pool total a := by
  intro n
  induction n using Nat.strong_induction_on with
  | _ n ih =>
    intro i endIndex plans pool total a hn
    by_cases h0 : i ≤ endIndex
    · cases hdi : index? data i with
      | none =>
        rw [mainPlanLoop_oob _ _ _ _ _ _ _ _ h0 hdi,
          TarSplit.planLoop_oob _ _ _ _ _ _ _ _ h0 hdi]
      | some di =>
        by_cases hfit : total + di.Size ≤ targetSize
        · rw [mainPlanLoop_forward _ _ _ _ _ _ _ _ di h0 hdi hfit,
            TarSplit.planLoop_forward _ _ _ _ _ _ _ _ di h0 hdi hfit]
          by_cases hend : i = endIndex
          · rw [if_pos hend, if_pos hend]
          · rw [if_neg hend, if_neg hend]
            exact ih (endIndex + 1 - (i + 1)).toNat (by omega) _ _ _ _ _ _ rfl
        · cases hbf : TarSplit.backfill data targetSize i endIndex pool total with
          | none =>
            have hbfm : backfill data targetSize i endIndex pool total = none :=
              (mainBackfill_eq data targetSize i endIndex pool total).trans hbf
            rw [mainPlanLoop_else_oob _ _ _ _ _ _ _ _ di h0 hdi hfit hbfm,
              TarSplit.planLoop_else_oob _ _ _ _ _ _ _ _ di h0 hdi hfit hbf]
          | some r =>
            obtain ⟨e1, p1, t1, c1⟩ := r
            have hbfm : backfill data targetSize i endIndex pool total =
                some (e1, p1, t1, c1) :=
              (mainBackfill_eq data targetSize i endIndex pool total).trans hbf
            have hle := TarSplit.backfill_le hbf
            rw [mainPlanLoop_else _ _ _ _ _ _ _ _ di e1 p1 t1 c1 h0 hdi hfit hbfm,
              TarSplit.planLoop_else _ _ _ _ _ _ _ _ di e1 p1 t1 c1 h0 hdi hfit hbf]
            by_cases hieq : i = e1
            · rw [if_pos hieq, if_pos hieq]
            · rw [if_neg hieq, if_neg hieq]
              by_cases hc : c1 = false
              · rw [if_pos hc, if_pos hc]
                exact ih (e1 + 1 - (i + 1)).toNat (by clear * - hn h0 hle; omega)
                  _ _ _ _ _ _ rfl
              · rw [if_neg hc, if_neg hc]
                exact ih (e1 + 1 - (i + 1)).toNat (by clear * - hn h0 hle; omega)
                  _ _ _ _ _ _ rfl
    · rw [mainPlanLoop_exit _ _ _ _ _ _ _ _ h0, TarSplit.planLoop_exit _ _ _ _ _ _ _ _ h0]

theorem mainBuildTarPlan_eq (data : List NameAndSize) (targetSize : Int) :
    buildTarPlan data targetSize = TarSplit.buildTarPlan data targetSize := by
  unfold buildTarPlan TarSplit.buildTarPlan
  exact mainPlanLoop_eq_aux data targetSize _ 0 _ [] [] 0 false rfl

end MainGo

/-- Readers an invocation can hand to tar.NewReader: the nil io.Reader
interface (the zero value of an io.Reader variable), the opened source file,
or a gzip.Reader wrapped around another reader. -/
inductive GoReader
  | nilReader
  | osFile
  | gzipOf (inner : GoReader)
deriving DecidableEq

/-- Go's filepath.Ext: the suffix of the path starting at the final dot in
the final slash separated element, empty when that element has no dot.
Implemented as the same backward scan Go uses, on the reversed character
list, with the characters already passed accumulated in order. -/
def extScan : List Char → List Char → String
  | [], _ => ""
  | c :: rest, acc =>
    if c = '/' then ""
    else if c = '.' then String.mk (c :: acc)
    else extScan rest (c :: acc)

def filepathExt (path : String) : String :=
  extScan path.toList.reverse []

/-- The reader actually handed to tar.NewReader inside generateSlice
(root.go lines 78 to 98; identical in main.go lines 40 to 60).  The Go code
declares var tarreader io.Reader (nil); in the .gz branch
tarreader, err := gzip.NewReader(filereader) declares a new block scoped
tarreader that shadows the outer one, so after the branch the outer
tarreader still holds its zero value nil; in the non .gz branch the outer
tarreader is assigned the opened file. -/
def generateSliceTarStream (filename : String) : GoReader :=
  let tarreader : GoReader := .nilReader
  if filepathExt filename = ".gz" then
    let _tarreaderShadow : GoReader := .gzipOf .osFile
    tarreader
  else
    .osFile

/-- The reader actually handed to tar.NewReader inside createNewTars
(root.go lines 176 to 196; identical in main.go).  Same shadowing: the .gz
branch declares a block scoped tarReader with := and never assigns
genericReader, so tar.NewReader(genericReader) receives nil. -/
def createNewTarsTarStream (filename : String) : GoReader :=
  let genericReader : GoReader := .nilReader
  if filepathExt filename = ".gz" then
    let _tarReaderShadow : GoReader := .gzipOf .osFile
    genericReader
  else
    .osFile

/-- Default of the targetsize flag registered in init (root.go line 42):
5368709120 bytes, the documented 5GB default. -/
def targetSizeFlagDefault : Int := 5368709120

/-- The byte budget split actually passes to buildTarPlan (root.go lines
64 to 76): the local declaration targetSize := int64(8600000000) shadows
the package level flag variable targetSize for the rest of split, so the
flag value never reaches the planner. -/
def splitPlannerBudget (flagTargetSize : Int) : Int :=
  let _flagValue : Int := flagTargetSize
  let targetSize : Int := 8600000000
  targetSize

/-- Tar header type flags as the rewrite loop distinguishes them: the
switch in createNewTars has a single case tar.TypeReg; directories,
symlinks and every other flag fall through with no case. -/
inductive TypeFlag
  | TypeReg
  | TypeDir
  | TypeSymlink
  | TypeOther
deriving DecidableEq

/-- A tar header as seen by the rewrite pass: entry name, payload size and
type flag.  The payload copied by io.Copy is identified by its header. -/
structure Header where
  Name : String
  Size : Int
  Typeflag : TypeFlag
deriving DecidableEq

/-- The routing table built by createNewTars (root.go lines 200 to 211):
for each plan index i in order, every name of the plan's pool is mapped to
that plan's tar.Writer; the writer is identified with the plan index, and a
later assignment to the same name overwrites an earlier one exactly as the
Go map assignment does. -/
def filenamePtrMap (plans : List Plan) : String → Option Nat :=
  (plans.enum).foldl
    (fun m ip =>
      ip.2.Pool.foldl
        (fun m fn => fun name => if name = fn.Name then some ip.1 else m name) m)
    (fun _ => none)

/-- The rewrite loop of createNewTars (root.go lines 213 to 238) over the
header stream: for each header, the switch writes regular file entries
(header plus payload) to the writer the routing table names and skips every
other type flag; a regular file entry whose name has no writer aborts with
the Missing writer ptr error.  The result is the list of performed writes
(destination plan index paired with the header written, in stream order)
and the error, if any, that ended the pass. -/
def copyLoop (ptrMap : String → Option Nat) :
    List Header → List (Nat × Header) × Option String
  | [] => ([], none)
  | header :: rest =>
    match header.Typeflag with
    | .TypeReg =>
      match ptrMap header.Name with
      | some mw =>
        ((mw, header) :: (copyLoop ptrMap rest).1, (copyLoop ptrMap rest).2)
      | none => ([], some ("Missing writer ptr for file " ++ header.Name))
    | _ => copyLoop ptrMap rest

/-- Every write performed by the rewrite loop is a regular file entry from
the stream, sent to the destination the routing table names. -/
theorem copyLoop_mem (ptrMap : String → Option Nat) :
    ∀ (entries : List Header) (k : Nat) (e : Header),
      (k, e) ∈ (copyLoop ptrMap entries).1 →
      e.Typeflag = TypeFlag.TypeReg ∧ ptrMap e.Name = some k ∧ e ∈ entries := by
  intro entries
  induction entries with
  | nil =>
    intro k e h
    exact absurd h (List.not_mem_nil _)
  | cons hd rest ih =>
    intro k e h
    cases hflag : hd.Typeflag with
    | TypeReg =>
      simp only [copyLoop, hflag] at h
      cases hmap : ptrMap hd.Name with
      | some mw =>
        simp only [hmap, List.mem_cons] at h
        rcases h with h | h
        · have hk : k = mw := congrArg Prod.fst h
          have he : e = hd := congrArg Prod.snd h
          subst hk
          subst he
          exact ⟨hflag, hmap, List.mem_cons_self _ _⟩
        · obtain ⟨h1, h2, h3⟩ := ih k e h
          exact ⟨h1, h2, List.mem_cons_of_mem hd h3⟩
      | none =>
        simp only [hmap] at h
        exact absurd h (List.not_mem_nil _)
    | TypeDir =>
      simp only [copyLoop, hflag] at h
      obtain ⟨h1, h2, h3⟩ := ih k e h
      exact ⟨h1, h2, List.mem_cons_of_mem hd h3⟩
    | TypeSymlink =>
      simp only [copyLoop, hflag] at h
      obtain ⟨h1, h2, h3⟩ := ih k e h
      exact ⟨h1, h2, List.mem_cons_of_mem hd h3⟩
    | TypeOther =>
      simp only [copyLoop, hflag] at h
      obtain ⟨h1, h2, h3⟩ := ih k e h
      exact ⟨h1, h2, List.mem_cons_of_mem hd h3⟩

/-- The writes aimed at any one destination keep the order of the source
header stream: filtering the write list to one plan index yields a sublist
of the stream. -/
theorem copyLoop_filter_sublist (ptrMap : String → Option Nat) (k : Nat) :
    ∀ (entries : List Header),
      List.Sublist
        (((copyLoop ptrMap entries).1.filter (fun w => w.1 == k)).map Prod.snd)
        entries := by
  intro entries
  induction entries with
  | nil =>
    simp only [copyLoop, List.filter_nil, List.map_nil]
    exact List.nil_sublist _
  | cons hd rest ih =>
    cases hflag : hd.Typeflag with
    | TypeReg =>
      cases hmap : ptrMap hd.Name with
      | some mw =>
        simp only [copyLoop, hflag, hmap]
        by_cases hk : (mw == k) = true
        · simp only [List.filter_cons, hk, if_true, List.map_cons]
          exact List.Sublist.cons₂ hd ih
        · simp only [List.filter_cons, hk, if_false, Bool.false_eq_true]
          exact List.Sublist.cons hd ih
      | none =>
        simp only [copyLoop, hflag, hmap, List.filter_nil, List.map_nil]
        exact List.nil_sublist _
    | TypeDir =>
      simp only [copyLoop, hflag]
      exact List.Sublist.cons hd ih
    | TypeSymlink =>
      simp only [copyLoop, hflag]
      exact List.Sublist.cons hd ih
    | TypeOther =>
      simp only [copyLoop, hflag]
      exact List.Sublist.cons hd ih

/-- The rewrite loop ends in an error exactly when the stream holds a
regular file entry whose name the routing table does not map. -/
theorem copyLoop_err_iff (ptrMap : String → Option Nat) :
    ∀ (entries : List Header),
      (copyLoop ptrMap entries).2.isSome = true ↔
        ∃ e ∈ entries, e.Typeflag = TypeFlag.TypeReg ∧ ptrMap e.Name = none := by
  intro entries
  induction entries with
  | nil =>
    simp [copyLoop]
  | cons hd rest ih =>
    cases hflag : hd.Typeflag with
    | TypeReg =>
      cases hmap : ptrMap hd.Name with
      | some mw =>
        simp only [copyLoop, hflag, hmap]
        constructor
        · intro h
          obtain ⟨e, he, h1, h2⟩ := ih.mp h
          exact ⟨e, List.mem_cons_of_mem hd he, h1, h2⟩
        · rintro ⟨e, he, h1, h2⟩
          rcases List.mem_cons.mp he with rfl | he2
          · rw [hmap] at h2
            exact Option.noConfusion h2
          · exact ih.mpr ⟨e, he2, h1, h2⟩
      | none =>
        simp only [copyLoop, hflag, hmap]
        constructor
        · intro _
          exact ⟨hd, List.mem_cons_self _ _, hflag, hmap⟩
        · intro _
          rfl
    | TypeDir =>
      simp only [copyLoop, hflag]
      constructor
      · intro h
        obtain ⟨e, he, h1, h2⟩ := ih.mp h
        exact ⟨e, List.mem_cons_of_mem hd he, h1, h2⟩
      · rintro ⟨e, he, h1, h2⟩
        rcases List.mem_cons.mp he with rfl | he2
        · rw [hflag] at h1
          exact TypeFlag.noConfusion h1
        · exact ih.mpr ⟨e, he2, h1, h2⟩
    | TypeSymlink =>
      simp only [copyLoop, hflag]
      constructor
      · intro h
        obtain ⟨e, he, h1, h2⟩ := ih.mp h
        exact ⟨e, List.mem_cons_of_mem hd he, h1, h2⟩
      · rintro ⟨e, he, h1, h2⟩
        rcases List.mem_cons.mp he with rfl | he2
        · rw [hflag] at h1
          exact TypeFlag.noConfusion h1
        · exact ih.mpr ⟨e, he2, h1, h2⟩
    | TypeOther =>
      simp only [copyLoop, hflag]
      constructor
      · intro h
        obtain ⟨e, he, h1, h2⟩ := ih.mp h
        exact ⟨e, List.mem_cons_of_mem hd he, h1, h2⟩
      · rintro ⟨e, he, h1, h2⟩
        rcases List.mem_cons.mp he with rfl | he2
        · rw [hflag] at h1
          exact TypeFlag.noConfusion h1
        · exact ih.mpr ⟨e, he2, h1, h2⟩

/-- A returned error message names a regular file entry of the stream whose
name the routing table does not map, in the exact Missing writer ptr form. -/
theorem copyLoop_err_msg (ptrMap : String → Option Nat) :
    ∀ (entries : List Header) (s : String),
      (copyLoop ptrMap entries).2 = some s →
      ∃ e ∈ entries, e.Typeflag = TypeFlag.TypeReg ∧ ptrMap e.Name = none ∧
        s = "Missing writer ptr for file " ++ e.Name := by
  intro entries
  induction entries with
  | nil =>
    intro s h
    simp only [copyLoop] at h
    exact Option.noConfusion h
  | cons hd rest ih =>
    intro s h
    cases hflag : hd.Typeflag with
    | TypeReg =>
      cases hmap : ptrMap hd.Name with
      | some mw =>
        simp only [copyLoop, hflag, hmap] at h
        obtain ⟨e, he, h1, h2, h3⟩ := ih s h
        exact ⟨e, List.mem_cons_of_mem hd he, h1, h2, h3⟩
      | none =>
        simp only [copyLoop, hflag, hmap, Option.some.injEq] at h
        exact ⟨hd, List.mem_cons_self _ _, hflag, hmap, h.symm⟩
    | TypeDir =>
      simp only [copyLoop, hflag] at h
      obtain ⟨e, he, h1, h2, h3⟩ := ih s h
      exact ⟨e, List.mem_cons_of_mem hd he, h1, h2, h3⟩
    | TypeSymlink =>
      simp only [copyLoop, hflag] at h
      obtain ⟨e, he, h1, h2, h3⟩ := ih s h
      exact ⟨e, List.mem_cons_of_mem hd he, h1, h2, h3⟩
    | TypeOther =>
      simp only [copyLoop, hflag] at h
      obtain ⟨e, he, h1, h2, h3⟩ := ih s h
      exact ⟨e, List.mem_cons_of_mem hd he, h1, h2, h3⟩

/-- An inventory sorted descending by size, the precondition the caller of
buildTarPlan establishes with sort.Sort(sort.Reverse(data)). -/
@[reducible] def sortedBySizeDesc (data : List NameAndSize) : Prop :=
  data.Pairwise (fun a b => b.Size ≤ a.Size)

/-- Evaluation of the planner on a single entry inventory whose entry
exceeds the target: the forward rule refuses it, the backfill loop stops at
once with canAddSmall false, the close block appends the still empty
current plan and then the seeded single entry plan. -/
theorem buildTarPlan_single_oversized (e : NameAndSize) (targetSize : Int)
    (h : targetSize < e.Size) :
    buildTarPlan [e] targetSize = some [⟨[]⟩, ⟨[e]⟩] := by
  have hdi : index? [e] 0 = some e := by simp [index?]
  have hlen : (([e] : List NameAndSize).length : Int) - 1 = 0 := by simp
  have hbf : backfill [e] targetSize 0 0 [] 0 = some (0, [], 0, false) :=
    backfill_stop [e] targetSize 0 0 [] 0 e le_rfl hdi (by omega)
  unfold buildTarPlan
  rw [hlen]
  rw [planLoop_else [e] targetSize 0 0 [] [] 0 false e 0 [] 0 false
    le_rfl hdi (by omega) hbf]
  rw [if_pos rfl]
  simp

/-- C1: the claim says the decompressed stream is the one actually parsed by
the tar reader in both passes for a .gz source.  The code violates this: in
both generateSlice and createNewTars the gzip reader is bound to a block
scoped variable by a short declaration, so tar.NewReader receives the nil
zero value of the outer reader variable, not the gzip stream (and not the
raw file either).  Evaluated here at the concrete source name
layer.tar.gz. -/
theorem C1_gz_stream_not_decompressed :
    filepathExt "layer.tar.gz" = ".gz" ∧
    generateSliceTarStream "layer.tar.gz" = GoReader.nilReader ∧
    createNewTarsTarStream "layer.tar.gz" = GoReader.nilReader ∧
    generateSliceTarStream "layer.tar.gz" ≠ GoReader.gzipOf GoReader.osFile ∧
    createNewTarsTarStream "layer.tar.gz" ≠ GoReader.gzipOf GoReader.osFile := by
  refine ⟨?_, ?_, ?_, ?_, ?_⟩ <;> decide

/-- C2 counterexample: on the inventory with the single oversized entry
(x, 999) and target 100, buildTarPlan returns two plans, an empty one first
and then the singleton oversized plan, so it does not return exactly one
plan as the claim states. -/
theorem C2_counterexample :
    buildTarPlan [⟨"x", 999⟩] 100 = some [⟨[]⟩, ⟨[⟨"x", 999⟩]⟩] ∧
    Option.map List.length (buildTarPlan [⟨"x", 999⟩] 100) ≠ some 1 := by
  have h := buildTarPlan_single_oversized ⟨"x", 999⟩ 100 (by norm_num)
  refine ⟨h, ?_⟩
  rw [h]
  simp

/-- C2 amended: for a single entry whose size exceeds the target,
buildTarPlan returns exactly two plans, a first empty plan followed by the
plan containing exactly the oversized entry; the oversized entry is never
rejected and its plan's total exceeds the target. -/
theorem C2_oversized_entry_two_plans (e : NameAndSize) (targetSize : Int)
    (h : targetSize < e.Size) :
    buildTarPlan [e] targetSize = some [⟨[]⟩, ⟨[e]⟩] ∧
    targetSize < poolSum [e] := by
  refine ⟨buildTarPlan_single_oversized e targetSize h, ?_⟩
  simpa [poolSum] using h

/-- C2 amended witness at the spec's concrete input (x, 999) with target
100. -/
theorem C2_oversized_entry_two_plans_witness :
    (100 : Int) < 999 ∧
    (buildTarPlan [⟨"x", 999⟩] 100 = some [⟨[]⟩, ⟨[⟨"x", 999⟩]⟩] ∧
     (100 : Int) < poolSum [⟨"x", 999⟩]) :=
  ⟨by norm_num, C2_oversized_entry_two_plans ⟨"x", 999⟩ 100 (by norm_num)⟩

/-- C3: for a non empty inventory sorted descending by size with non
negative sizes and a positive target, buildTarPlan succeeds and the
concatenation of all plans' pools is a permutation of the inventory: no
entry is omitted, duplicated, or invented. -/
theorem C3_coverage (data : List NameAndSize) (targetSize : Int)
    (hne : data ≠ []) (hsorted : sortedBySizeDesc data) (hT : 0 < targetSize)
    (hsz : ∀ x ∈ data, 0 ≤ x.Size) :
    ∃ res, buildTarPlan data targetSize = some res ∧ (plansJoin res).Perm data := by
  have hs := planLoop_isSome_aux data targetSize _ 0 ((data.length : Int) - 1)
    [] [] 0 false rfl le_rfl (by omega)
  obtain ⟨res, hres⟩ := Option.isSome_iff_exists.mp hs
  refine ⟨res, hres, ?_⟩
  have hperm := planLoop_perm_aux data targetSize hsz _ 0 ((data.length : Int) - 1)
    [] [] 0 res rfl le_rfl (fun _ => rfl) hres
  simpa [plansJoin, region_all data] using hperm

/-- C3 witness at the inventory [(a,3),(b,2),(c,1)] with target 4. -/
theorem C3_coverage_witness :
    ([⟨"a", (3:Int)⟩, ⟨"b", 2⟩, ⟨"c", 1⟩] : List NameAndSize) ≠ [] ∧
    sortedBySizeDesc [⟨"a", 3⟩, ⟨"b", 2⟩, ⟨"c", 1⟩] ∧
    (0 : Int) < 4 ∧
    (∀ x ∈ ([⟨"a", 3⟩, ⟨"b", 2⟩, ⟨"c", 1⟩] : List NameAndSize), 0 ≤ x.Size) ∧
    ∃ res, buildTarPlan [⟨"a", 3⟩, ⟨"b", 2⟩, ⟨"c", 1⟩] 4 = some res ∧
      (plansJoin res).Perm [⟨"a", 3⟩, ⟨"b", 2⟩, ⟨"c", 1⟩] :=
  ⟨by decide, by decide, by decide, by decide,
    C3_coverage [⟨"a", 3⟩, ⟨"b", 2⟩, ⟨"c", 1⟩] 4
      (by decide) (by decide) (by decide) (by decide)⟩

/-- C4: for an inventory sorted descending by size with non negative sizes
and a positive target, every plan buildTarPlan returns either totals at most
the target or is a single entry plan whose entry's own size exceeds the
target. -/
theorem C4_budget (data : List NameAndSize) (targetSize : Int)
    (hsorted : sortedBySizeDesc data) (hT : 0 < targetSize)
    (hsz : ∀ x ∈ data, 0 ≤ x.Size)
    (res : List Plan) (hres : buildTarPlan data targetSize = some res) :
    ∀ p ∈ res, poolSum p.Pool ≤ targetSize ∨
      ∃ e, p.Pool = [e] ∧ targetSize < e.Size := by
  have h := planLoop_budget_aux data targetSize hsz (le_of_lt hT) _ 0
    ((data.length : Int) - 1) [] [] 0 false res rfl (by simp [poolSum])
    (Or.inl (le_of_lt hT)) (fun p hp => absurd hp (List.not_mem_nil p)) hres
  exact fun p hp => h p hp

/-- C4 witness at the oversized single entry inventory (x, 999) with target
100: the empty plan respects the budget and the oversized plan is the
documented exception. -/
theorem C4_budget_witness :
    sortedBySizeDesc [⟨"x", (999:Int)⟩] ∧
    (0 : Int) < 100 ∧
    (∀ x ∈ ([⟨"x", 999⟩] : List NameAndSize), 0 ≤ x.Size) ∧
    buildTarPlan [⟨"x", 999⟩] 100 = some [⟨[]⟩, ⟨[⟨"x", 999⟩]⟩] ∧
    (∀ p ∈ ([⟨[]⟩, ⟨[⟨"x", 999⟩]⟩] : List Plan),
      poolSum p.Pool ≤ 100 ∨ ∃ e, p.Pool = [e] ∧ 100 < e.Size) := by
  have hbt : buildTarPlan [⟨"x", 999⟩] 100 = some [⟨[]⟩, ⟨[⟨"x", 999⟩]⟩] :=
    buildTarPlan_single_oversized ⟨"x", 999⟩ 100 (by norm_num)
  exact ⟨by decide, by decide, by decide, hbt,
    C4_budget [⟨"x", 999⟩] 100 (by decide) (by decide) (by decide) _ hbt⟩

/-- C5: the claim says the budget handed to buildTarPlan equals the
externally supplied targetsize flag, whose documented default is
5368709120.  The code violates this: split shadows the flag variable with
a hardcoded local targetSize := 8600000000, so the planner always receives
8600000000 whatever the flag holds. -/
theorem C5_target_size_not_forwarded :
    (∀ v : Int, splitPlannerBudget v = 8600000000) ∧
    splitPlannerBudget targetSizeFlagDefault = 8600000000 ∧
    splitPlannerBudget targetSizeFlagDefault ≠ targetSizeFlagDefault :=
  ⟨fun _ => rfl, rfl, by decide⟩

/-- C6: the one deliberate asymmetry of the planner: at the high pointer an
entry that would bring the running total exactly to the target is refused
(strict less than) and the backfill loop stops there with canAddSmall set
false, while at the low pointer the forward rule admits an entry that
brings the total exactly to the target and the sweep continues with it in
the pool. -/
theorem C6_backfill_strict_forward_slack (data : List NameAndSize)
    (targetSize i endIndex total : Int) (pool : List NameAndSize)
    (plans : List Plan) (addToNext : Bool) (e di : NameAndSize)
    (h0 : i ≤ endIndex) (hhigh : index? data endIndex = some e)
    (heq : total + e.Size = targetSize)
    (hlow : index? data i = some di) (hleq : total + di.Size = targetSize)
    (hne : i ≠ endIndex) :
    backfill data targetSize i endIndex pool total =
      some (endIndex, pool, total, false) ∧
    planLoop data targetSize i endIndex plans pool total addToNext =
      planLoop data targetSize (i + 1) endIndex plans (pool ++ [di])
        (total + di.Size) addToNext := by
  constructor
  · exact backfill_stop data targetSize i endIndex pool total e h0 hhigh (by omega)
  · rw [planLoop_forward data targetSize i endIndex plans pool total addToNext di
      h0 hlow (by omega)]
    rw [if_neg hne]

/-- C6 witness: two entries of size 6, target 10, running total 4: the high
pointer refuses the entry that would reach exactly 10, the low pointer
admits it. -/
theorem C6_backfill_strict_forward_slack_witness :
    ((0 : Int) ≤ 1) ∧
    index? [⟨"a", (6:Int)⟩, ⟨"b", 6⟩] 1 = some ⟨"b", 6⟩ ∧
    ((4 : Int) + 6 = 10) ∧
    index? [⟨"a", (6:Int)⟩, ⟨"b", 6⟩] 0 = some ⟨"a", 6⟩ ∧
    ((0 : Int) ≠ 1) ∧
    (backfill [⟨"a", 6⟩, ⟨"b", 6⟩] 10 0 1 [] 4 = some (1, [], 4, false) ∧
     planLoop [⟨"a", 6⟩, ⟨"b", 6⟩] 10 0 1 [] [] 4 false =
       planLoop [⟨"a", 6⟩, ⟨"b", 6⟩] 10 (0 + 1) 1 [] ([] ++ [⟨"a", 6⟩])
         (4 + 6) false) :=
  ⟨by decide, by decide, by decide, by decide, by decide,
    C6_backfill_strict_forward_slack [⟨"a", 6⟩, ⟨"b", 6⟩] 10 0 1 4 [] [] false
      ⟨"b", 6⟩ ⟨"a", 6⟩ (by decide) (by decide) (by decide) (by decide)
      (by decide) (by decide)⟩

/-- C7: every write the rewrite loop performs is a regular file entry of the
source stream (so directory, symlink and other entries reach no output),
and the writes aimed at any one destination are a sublist of the source
stream, hence in source archive order. -/
theorem C7_only_regular_files_in_order (entries : List Header)
    (plans : List Plan) (k : Nat) (e : Header)
    (hmem : (k, e) ∈ (copyLoop (filenamePtrMap plans) entries).1) :
    e.Typeflag = TypeFlag.TypeReg ∧ e ∈ entries ∧
    List.Sublist
      (((copyLoop (filenamePtrMap plans) entries).1.filter
        (fun w => w.1 == k)).map Prod.snd) entries := by
  obtain ⟨h1, h2, h3⟩ := copyLoop_mem (filenamePtrMap plans) entries k e hmem
  exact ⟨h1, h3, copyLoop_filter_sublist (filenamePtrMap plans) k entries⟩

/-- C7 witness: a directory entry followed by a regular file entry routed to
plan 0: the regular file is written to destination 0, the directory entry
nowhere, in source order. -/
theorem C7_only_regular_files_in_order_witness :
    ((0 : Nat), (⟨"f", (3:Int), TypeFlag.TypeReg⟩ : Header)) ∈
      (copyLoop (filenamePtrMap [⟨[⟨"f", 3⟩]⟩])
        [⟨"d", 0, TypeFlag.TypeDir⟩, ⟨"f", 3, TypeFlag.TypeReg⟩]).1 ∧
    ((⟨"f", (3:Int), TypeFlag.TypeReg⟩ : Header).Typeflag = TypeFlag.TypeReg ∧
     (⟨"f", (3:Int), TypeFlag.TypeReg⟩ : Header) ∈
       ([⟨"d", 0, TypeFlag.TypeDir⟩, ⟨"f", 3, TypeFlag.TypeReg⟩] : List Header) ∧
     List.Sublist
       (((copyLoop (filenamePtrMap [⟨[⟨"f", 3⟩]⟩])
         [⟨"d", 0, TypeFlag.TypeDir⟩, ⟨"f", 3, TypeFlag.TypeReg⟩]).1.filter
           (fun w => w.1 == 0)).map Prod.snd)
       [⟨"d", 0, TypeFlag.TypeDir⟩, ⟨"f", 3, TypeFlag.TypeReg⟩]) :=
  ⟨by decide,
    C7_only_regular_files_in_order
      [⟨"d", 0, TypeFlag.TypeDir⟩, ⟨"f", 3, TypeFlag.TypeReg⟩]
      [⟨[⟨"f", 3⟩]⟩] 0 ⟨"f", 3, TypeFlag.TypeReg⟩ (by decide)⟩

/-- C8: with the pure routing and copy logic (no underlying write failures
in the model), the rewrite loop ends in an error exactly when the stream
holds a regular file entry whose name the routing table does not map; the
error message names that entry, and that entry is written to no output. -/
theorem C8_routing_error_iff (entries : List Header) (plans : List Plan) :
    ((copyLoop (filenamePtrMap plans) entries).2.isSome = true ↔
      ∃ e ∈ entries, e.Typeflag = TypeFlag.TypeReg ∧
        filenamePtrMap plans e.Name = none) ∧
    ∀ s, (copyLoop (filenamePtrMap plans) entries).2 = some s →
      ∃ e ∈ entries, e.Typeflag = TypeFlag.TypeReg ∧
        filenamePtrMap plans e.Name = none ∧
        s = "Missing writer ptr for file " ++ e.Name ∧
        ∀ k, (k, e) ∉ (copyLoop (filenamePtrMap plans) entries).1 := by
  constructor
  · exact copyLoop_err_iff _ entries
  · intro s hs
    obtain ⟨e, he, h1, h2, h3⟩ := copyLoop_err_msg _ entries s hs
    refine ⟨e, he, h1, h2, h3, ?_⟩
    intro k hk
    have hsome := (copyLoop_mem _ entries k e hk).2.1
    rw [h2] at hsome
    exact Option.noConfusion hsome

/-- C8 witness: a single regular file entry with an empty plan set: the
loop fails with the Missing writer ptr error naming the entry, which is
written nowhere. -/
theorem C8_routing_error_iff_witness :
    (copyLoop (filenamePtrMap []) [⟨"b", (7:Int), TypeFlag.TypeReg⟩]).2 =
      some "Missing writer ptr for file b" ∧
    ∃ e ∈ ([⟨"b", (7:Int), TypeFlag.TypeReg⟩] : List Header),
      e.Typeflag = TypeFlag.TypeReg ∧
      filenamePtrMap [] e.Name = none ∧
      "Missing writer ptr for file b" = "Missing writer ptr for file " ++ e.Name ∧
      ∀ k, (k, e) ∉ (copyLoop (filenamePtrMap [])
        [⟨"b", (7:Int), TypeFlag.TypeReg⟩]).1 := by
  have hs : (copyLoop (filenamePtrMap []) [⟨"b", (7:Int), TypeFlag.TypeReg⟩]).2 =
      some "Missing writer ptr for file b" := by decide
  exact ⟨hs, (C8_routing_error_iff [⟨"b", 7, TypeFlag.TypeReg⟩] []).2
    "Missing writer ptr for file b" hs⟩

/-- C9: buildTarPlan is total: for every inventory (any sizes, any order)
and every target it terminates with a result and every slice access
data[i], data[endIndex] it performs is in bounds (the embedding returns
none precisely on an access Go would panic on). -/
theorem C9_buildTarPlan_total (data : List NameAndSize) (targetSize : Int) :
    (buildTarPlan data targetSize).isSome = true :=
  planLoop_isSome_aux data targetSize _ 0 ((data.length : Int) - 1) [] [] 0 false
    rfl le_rfl (by omega)

/-- C10: the buildTarPlan of src/main.go and the buildTarPlan of
src/cmd/root.go compute identical plan sets on every inventory and every
target: same plans, same order, same entries in the same order. -/
theorem C10_planners_equal (data : List NameAndSize) (targetSize : Int) :
    MainGo.buildTarPlan data targetSize = buildTarPlan data targetSize :=
  MainGo.mainBuildTarPlan_eq data targetSize

end TarSplit
